import Mathlib

/-!
Verification development for the `decision-making` assignment scripts.

The definitions below are shallow embeddings of the Python sources:
  * `Assignment2/Exercise 1.1e.py`  — PESP event-activity network construction
  * `Assignment2/Exercise_2.1a.py`  — periodic trip-pattern extraction
  * `Assignment3/solve_1.2b_cvrp.py`, `solve_1.2c_cvrp.py` — Monte Carlo
    robustness simulation and the cutting-plane scenario loop
  * `Assignment3/solve_1.2d_cvrp.py`, `solve_1.2e_cvrp.py` — refill recourse
  * `Assignment3/solve_part1a_cvrp.py` — route-based CVRP coverage check
  * `Assignment3/solve_2.1(d).py` — Shapley value computation

Machine integers of the Python code are modelled as `Int`/`Nat` (Python ints
are unbounded, so no wrap-around is needed).  Randomness (`numpy`'s
`rng.integers(lo, hi+1)`) is modelled by an explicit draw parameter: the
library call returns `lo + u % (hi + 1 - lo)` for an arbitrary underlying
natural `u`, which is exactly the set of values the call can produce.
External solver invocations are opaque to the scripts themselves; where a
claim depends on solver output (the routes of an incumbent solution) the
output is an explicit parameter.
-/

namespace DecisionMaking

/-! ## PESP network construction (`Exercise 1.1e.py`) -/

/-- Stations are identified by their abbreviation string, as in the Excel data. -/
abbrev Station := String

/-- Travel direction of a line: `'F'` (forward) or `'B'` (backward). -/
inductive Dir where
  | F
  | B
deriving DecidableEq, Repr

/-- Event type: departure `'D'` or arrival `'A'`. -/
inductive EType where
  | D
  | A
deriving DecidableEq, Repr

/-- The tuple stored for each event and used as `event_dict` key:
`(line, direction, station, event_type)`. -/
abbrev EventKey := Nat × Dir × Station × EType

/-- `path = list(reversed(station_sequence)) if direction == 'B' else station_sequence`. -/
def dirPath (d : Dir) (seq : List Station) : List Station :=
  match d with
  | .B => seq.reverse
  | .F => seq

/-- The inner loop of `build_network` for one `(line, direction)`:
for each station of the path, `create_event(line, direction, station, 'D')`
followed by `create_event(line, direction, station, 'A')`.  `c` is the value of
`self.event_counter` on entry; each `create_event` returns the counter and
increments it. -/
def pathEvents (l : Nat) (d : Dir) : List Station → Nat → List (EventKey × Nat)
  | [], _ => []
  | s :: rest, c =>
      ((l, d, s, EType.D), c) :: ((l, d, s, EType.A), c + 1) :: pathEvents l d rest (c + 2)

/-- Events created for one line: direction `'F'` then `'B'`; the counter has
advanced by `2 * seq.length` after the forward pass. -/
def lineEvents (l : Nat) (seq : List Station) (c : Nat) : List (EventKey × Nat) :=
  pathEvents l .F (dirPath .F seq) c ++
    pathEvents l .B (dirPath .B seq) (c + 2 * seq.length)

/-- The event-creation part of `build_network`, iterating over
`self.lines.items()` (a dict: insertion-ordered association list with distinct
keys) with the running `event_counter`.  Returns the `(key, event_id)` pairs
inserted into `event_dict`, in insertion order. -/
def buildEvents : List (Nat × List Station) → Nat → List (EventKey × Nat)
  | [], _ => []
  | (l, seq) :: rest, c => lineEvents l seq c ++ buildEvents rest (c + 4 * seq.length)

/-- `event_dict` content produced by `build_network` (the activity-creation
calls only read `event_dict`; they never add events). -/
def buildNetwork (lines : List (Nat × List Station)) : List (EventKey × Nat) :=
  buildEvents lines 0

/-- Total number of stops summed over all lines. -/
def totalStops (lines : List (Nat × List Station)) : Nat :=
  (lines.map (fun p => p.2.length)).sum

lemma pathEvents_length (l : Nat) (d : Dir) (p : List Station) (c : Nat) :
    (pathEvents l d p c).length = 2 * p.length := by
  induction p generalizing c with
  | nil => simp [pathEvents]
  | cons s rest ih =>
      simp only [pathEvents, List.length_cons, ih]
      omega

lemma pathEvents_snd (l : Nat) (d : Dir) (p : List Station) (c : Nat) :
    (pathEvents l d p c).map Prod.snd = List.range' c (2 * p.length) := by
  induction p generalizing c with
  | nil => simp [pathEvents]
  | cons s rest ih =>
      have h2 : 2 * (rest.length + 1) = (2 * rest.length) + 1 + 1 := by ring
      simp only [pathEvents, List.map_cons, ih, List.length_cons, h2]
      rw [List.range'_succ, List.range'_succ]

lemma pathEvents_fst (l : Nat) (d : Dir) (p : List Station) (c : Nat) :
    (pathEvents l d p c).map Prod.fst =
      p.flatMap (fun s => [(l, d, s, EType.D), (l, d, s, EType.A)]) := by
  induction p generalizing c with
  | nil => simp [pathEvents]
  | cons s rest ih => simp [pathEvents, ih]

lemma mem_pathEvents_fst {l : Nat} {d : Dir} {p : List Station} {c : Nat}
    (k : EventKey) :
    k ∈ (pathEvents l d p c).map Prod.fst ↔
      ∃ s ∈ p, ∃ t, k = (l, d, s, t) := by
  rw [pathEvents_fst]
  simp only [List.mem_flatMap, List.mem_cons, List.mem_singleton]
  constructor
  · rintro ⟨s, hs, h | h | h⟩
    · exact ⟨s, hs, EType.D, h⟩
    · exact ⟨s, hs, EType.A, h⟩
    · cases h
  · rintro ⟨s, hs, t, rfl⟩
    cases t
    · exact ⟨s, hs, Or.inl rfl⟩
    · exact ⟨s, hs, Or.inr (Or.inl rfl)⟩

lemma pathEvents_fst_nodup (l : Nat) (d : Dir) {p : List Station} (hp : p.Nodup)
    (c : Nat) : ((pathEvents l d p c).map Prod.fst).Nodup := by
  induction p generalizing c with
  | nil => simp [pathEvents]
  | cons s rest ih =>
      obtain ⟨hs, hrest⟩ := List.nodup_cons.mp hp
      simp only [pathEvents, List.map_cons]
      refine List.nodup_cons.mpr ⟨?_, List.nodup_cons.mpr ⟨?_, ih hrest _⟩⟩
      · intro h
        rcases List.mem_cons.mp h with h | h
        · exact absurd (congrArg (fun k => k.2.2.2) h) (by simp)
        · obtain ⟨s', hs', t, ht⟩ := (mem_pathEvents_fst _).mp h
          obtain ⟨rfl, -⟩ : s = s' ∧ EType.D = t := by
            have := congrArg (fun k => k.2.2) ht
            simpa using this
          exact hs hs'
      · intro h
        obtain ⟨s', hs', t, ht⟩ := (mem_pathEvents_fst _).mp h
        obtain ⟨rfl, -⟩ : s = s' ∧ EType.A = t := by
          have := congrArg (fun k => k.2.2) ht
          simpa using this
        exact hs hs'

lemma lineEvents_snd (l : Nat) (seq : List Station) (c : Nat) :
    (lineEvents l seq c).map Prod.snd = List.range' c (4 * seq.length) := by
  have h := List.range'_append c (2 * seq.length) (2 * seq.length) 1
  simp only [one_mul] at h
  simp only [lineEvents, List.map_append, pathEvents_snd, dirPath,
    List.length_reverse]
  rw [h]
  congr 1
  ring

lemma buildEvents_snd (lines : List (Nat × List Station)) (c : Nat) :
    (buildEvents lines c).map Prod.snd = List.range' c (4 * totalStops lines) := by
  induction lines generalizing c with
  | nil => simp [buildEvents, totalStops]
  | cons p rest ih =>
      obtain ⟨l, seq⟩ := p
      have h := List.range'_append c (4 * seq.length) (4 * totalStops rest) 1
      simp only [one_mul] at h
      simp only [buildEvents, List.map_append, lineEvents_snd, ih]
      rw [h]
      congr 1
      simp only [totalStops, List.map_cons, List.sum_cons]
      ring

lemma mem_lineEvents_fst {l : Nat} {seq : List Station} {c : Nat} (k : EventKey) :
    k ∈ (lineEvents l seq c).map Prod.fst ↔
      ∃ s ∈ seq, ∃ d t, k = (l, d, s, t) := by
  simp only [lineEvents, List.map_append, List.mem_append, mem_pathEvents_fst,
    dirPath, List.mem_reverse]
  constructor
  · rintro (⟨s, hs, t, rfl⟩ | ⟨s, hs, t, rfl⟩)
    · exact ⟨s, hs, Dir.F, t, rfl⟩
    · exact ⟨s, hs, Dir.B, t, rfl⟩
  · rintro ⟨s, hs, d, t, rfl⟩
    cases d
    · exact Or.inl ⟨s, hs, t, rfl⟩
    · exact Or.inr ⟨s, hs, t, rfl⟩

lemma lineEvents_fst_nodup {l : Nat} {seq : List Station} (hseq : seq.Nodup)
    (c : Nat) : ((lineEvents l seq c).map Prod.fst).Nodup := by
  simp only [lineEvents, List.map_append]
  refine List.nodup_append.mpr ⟨pathEvents_fst_nodup l .F ?_ c,
    pathEvents_fst_nodup l .B ?_ _, ?_⟩
  · simpa [dirPath] using hseq
  · simpa [dirPath] using hseq
  · intro k hF hB
    obtain ⟨s, -, t, rfl⟩ := (mem_pathEvents_fst k).mp hF
    obtain ⟨s', -, t', ht⟩ := (mem_pathEvents_fst _).mp hB
    have : Dir.F = Dir.B := congrArg (fun k => k.2.1) ht
    exact absurd this (by simp)

lemma mem_buildEvents_fst {lines : List (Nat × List Station)} {c : Nat}
    (k : EventKey) :
    k ∈ (buildEvents lines c).map Prod.fst ↔
      ∃ l seq, (l, seq) ∈ lines ∧ ∃ s ∈ seq, ∃ d t, k = (l, d, s, t) := by
  induction lines generalizing c with
  | nil => simp [buildEvents]
  | cons p rest ih =>
      obtain ⟨l, seq⟩ := p
      simp only [buildEvents, List.map_append, List.mem_append,
        mem_lineEvents_fst, ih, List.mem_cons]
      constructor
      · rintro (⟨s, hs, d, t, rfl⟩ | ⟨l', seq', hmem, hrest⟩)
        · exact ⟨l, seq, Or.inl rfl, s, hs, d, t, rfl⟩
        · exact ⟨l', seq', Or.inr hmem, hrest⟩
      · rintro ⟨l', seq', hmem | hmem, hrest⟩
        · obtain ⟨rfl, rfl⟩ := Prod.mk.injEq .. ▸ hmem
          exact Or.inl (by exact_mod_cast hrest)
        · exact Or.inr ⟨l', seq', hmem, hrest⟩

lemma buildEvents_fst_nodup {lines : List (Nat × List Station)}
    (hids : (lines.map Prod.fst).Nodup) (hstops : ∀ p ∈ lines, p.2.Nodup)
    (c : Nat) : ((buildEvents lines c).map Prod.fst).Nodup := by
  induction lines generalizing c with
  | nil => simp [buildEvents]
  | cons p rest ih =>
      obtain ⟨l, seq⟩ := p
      simp only [List.map_cons, List.nodup_cons] at hids
      simp only [buildEvents, List.map_append]
      refine List.nodup_append.mpr
        ⟨lineEvents_fst_nodup (hstops _ (List.mem_cons_self _ _)) c,
         ih hids.2 (fun p hp => hstops p (List.mem_cons_of_mem _ hp)) _, ?_⟩
      intro k hk1 hk2
      obtain ⟨s, -, d, t, rfl⟩ := (mem_lineEvents_fst k).mp hk1
      obtain ⟨l', seq', hmem, s', -, d', t', ht⟩ := (mem_buildEvents_fst _).mp hk2
      have hl : l = l' := congrArg (fun k => k.1) ht
      exact hids.1 (hl ▸ List.mem_map_of_mem Prod.fst hmem)

/-- **C1.** For input lines whose stop sequences contain no repeated station
(and whose line names are distinct, as `self.lines` is a dict),
`build_network` creates exactly `4 * (total number of stops)` events; the
`event_dict` it returns has pairwise-distinct keys and pairwise-distinct event
ids, contains the key `(line, direction, station, type)` for every line, both
directions `'F'`/`'B'`, every station on the line's stop sequence and both
types `'D'`/`'A'`, and contains no other keys — so there is exactly one
departure and one arrival event per (line, direction, station) triple, each
mapped to a distinct event id. -/
theorem c1_build_network_events (lines : List (Nat × List Station))
    (hids : (lines.map Prod.fst).Nodup)
    (hstops : ∀ p ∈ lines, p.2.Nodup) :
    (buildNetwork lines).length = 4 * totalStops lines ∧
    ((buildNetwork lines).map Prod.fst).Nodup ∧
    ((buildNetwork lines).map Prod.snd).Nodup ∧
    (∀ l seq, (l, seq) ∈ lines → ∀ s ∈ seq, ∀ d t,
      ((l, d, s, t) : EventKey) ∈ (buildNetwork lines).map Prod.fst) ∧
    (∀ k ∈ (buildNetwork lines).map Prod.fst,
      ∃ l seq, (l, seq) ∈ lines ∧ ∃ s ∈ seq, ∃ d t, k = (l, d, s, t)) := by
  refine ⟨?_, buildEvents_fst_nodup hids hstops 0, ?_, ?_, ?_⟩
  · have h := congrArg List.length (buildEvents_snd lines 0)
    simpa [buildNetwork] using h
  · rw [buildNetwork, buildEvents_snd]
    exact List.nodup_range' ..
  · intro l seq hmem s hs d t
    exact (mem_buildEvents_fst _).mpr ⟨l, seq, hmem, s, hs, d, t, rfl⟩
  · intro k hk
    exact (mem_buildEvents_fst k).mp hk

/-- Witness for C1 on a concrete two-line network. -/
theorem c1_build_network_events_witness :
    (buildNetwork [(800, ["Amr", "Asd", "Ut"]), (3000, ["Asd", "Ut"])]).length =
      4 * totalStops [(800, ["Amr", "Asd", "Ut"]), (3000, ["Asd", "Ut"])] ∧
    ((800, Dir.F, "Asd", EType.D) : EventKey) ∈
      (buildNetwork [(800, ["Amr", "Asd", "Ut"]), (3000, ["Asd", "Ut"])]).map
        Prod.fst := by
  have h := c1_build_network_events
    [(800, ["Amr", "Asd", "Ut"]), (3000, ["Asd", "Ut"])]
    (by decide) (by intro p hp; fin_cases hp <;> decide)
  exact ⟨h.1, h.2.2.2.1 800 ["Amr", "Asd", "Ut"] (by decide) "Asd" (by decide)
    Dir.F EType.D⟩

/-! ### Running activities (`PESPModel._create_running_activities`) -/

/-- One entry of `self.activities`: the dict
`{'from': .., 'to': .., 'type': .., 'lower': .., 'upper': .., 'weight': ..}`.
Events are identified by their `event_dict` key (the key-to-id map built by
`build_network` is injective, so this loses no information). -/
structure Activity where
  fromKey : EventKey
  toKey : EventKey
  typ : String
  lower : Nat
  upper : Nat
  weight : Nat
deriving DecidableEq, Repr

/-- `self.travel_times.get((a, b), self.travel_times.get((b, a)))`:
the travel-time dict lookup, falling back to the reversed orientation. -/
def ttLookup (tt : List ((Station × Station) × Nat)) (a b : Station) :
    Option Nat :=
  match tt.lookup (a, b) with
  | some t => some t
  | none => tt.lookup (b, a)

/-- The index pairs `(path[i], path[i+1])` for `i in range(len(path) - 1)`. -/
def consecutivePairs (p : List Station) : List (Station × Station) :=
  p.zip p.tail

/-- Inner loop of `_create_running_activities` for one `(line, direction)`:
for each consecutive station pair, look up the travel time (either
orientation); on `None`, `continue`; otherwise
`create_activity(dep, arr, 'running', travel_time, travel_time, weight=100)`. -/
def runningForPath (tt : List ((Station × Station) × Nat)) (l : Nat) (d : Dir)
    (path : List Station) : List Activity :=
  (consecutivePairs path).filterMap fun ab =>
    (ttLookup tt ab.1 ab.2).map fun t =>
      ⟨(l, d, ab.1, EType.D), (l, d, ab.2, EType.A), "running", t, t, 100⟩

/-- All running activities created by `_create_running_activities`. -/
def runningActivities (tt : List ((Station × Station) × Nat))
    (lines : List (Nat × List Station)) : List Activity :=
  lines.flatMap fun p =>
    runningForPath tt p.1 .F (dirPath .F p.2) ++
      runningForPath tt p.1 .B (dirPath .B p.2)

lemma mem_runningForPath {tt : List ((Station × Station) × Nat)} {l : Nat}
    {d : Dir} {path : List Station} (act : Activity) :
    act ∈ runningForPath tt l d path ↔
      ∃ ab ∈ consecutivePairs path, ∃ t, ttLookup tt ab.1 ab.2 = some t ∧
        act = ⟨(l, d, ab.1, EType.D), (l, d, ab.2, EType.A), "running",
          t, t, 100⟩ := by
  simp only [runningForPath, List.mem_filterMap, Option.map_eq_some']
  constructor
  · rintro ⟨ab, hab, t, ht, rfl⟩
    exact ⟨ab, hab, t, ht, rfl⟩
  · rintro ⟨ab, hab, t, ht, rfl⟩
    exact ⟨ab, hab, t, ht, rfl⟩

lemma mem_runningActivities {tt : List ((Station × Station) × Nat)}
    {lines : List (Nat × List Station)} (act : Activity) :
    act ∈ runningActivities tt lines ↔
      ∃ l seq, (l, seq) ∈ lines ∧ ∃ d, ∃ ab ∈ consecutivePairs (dirPath d seq),
        ∃ t, ttLookup tt ab.1 ab.2 = some t ∧
          act = ⟨(l, d, ab.1, EType.D), (l, d, ab.2, EType.A), "running",
            t, t, 100⟩ := by
  simp only [runningActivities, List.mem_flatMap, List.mem_append,
    mem_runningForPath]
  constructor
  · rintro ⟨⟨l, seq⟩, hmem, h | h⟩
    · exact ⟨l, seq, hmem, Dir.F, h⟩
    · exact ⟨l, seq, hmem, Dir.B, h⟩
  · rintro ⟨l, seq, hmem, d, h⟩
    refine ⟨(l, seq), hmem, ?_⟩
    cases d
    · exact Or.inl h
    · exact Or.inr h

/-- **C4.** Running activities: every created running activity has equal lower
and upper bounds; for every line, direction and consecutive station pair
`(a, b)` of that direction's path, if the travel-time lookup (in orientation
`(a, b)`, falling back to `(b, a)`) yields `t` then a running activity from the
departure event at `a` to the arrival event at `b` with bounds `t, t` is
created, and if neither orientation has a travel time then no running activity
with those endpoint events is created. -/
theorem c4_running_activities (tt : List ((Station × Station) × Nat))
    (lines : List (Nat × List Station)) :
    (∀ act ∈ runningActivities tt lines, act.lower = act.upper) ∧
    ∀ l seq, (l, seq) ∈ lines → ∀ d a b,
      (a, b) ∈ consecutivePairs (dirPath d seq) →
      (∀ t, ttLookup tt a b = some t →
        (⟨(l, d, a, EType.D), (l, d, b, EType.A), "running", t, t, 100⟩ :
          Activity) ∈ runningActivities tt lines) ∧
      (ttLookup tt a b = none →
        ∀ act ∈ runningActivities tt lines,
          ¬(act.fromKey = (l, d, a, EType.D) ∧
            act.toKey = (l, d, b, EType.A))) := by
  constructor
  · intro act hact
    obtain ⟨l, seq, -, d, ab, -, t, -, rfl⟩ := (mem_runningActivities act).mp hact
    rfl
  · intro l seq hmem d a b hab
    constructor
    · intro t ht
      exact (mem_runningActivities _).mpr ⟨l, seq, hmem, d, (a, b), hab, t, ht, rfl⟩
    · intro hnone act hact hkeys
      obtain ⟨hfrom, hto⟩ := hkeys
      obtain ⟨l', seq', -, d', ab, -, t, ht, rfl⟩ :=
        (mem_runningActivities act).mp hact
      have h1 : l' = l := congrArg (fun k : EventKey => k.1) hfrom
      have h2 : d' = d := congrArg (fun k : EventKey => k.2.1) hfrom
      have h3 : ab.1 = a := congrArg (fun k : EventKey => k.2.2.1) hfrom
      have h4 : ab.2 = b := congrArg (fun k : EventKey => k.2.2.1) hto
      rw [h3, h4, hnone] at ht
      cases ht

/-- Witness for C4 on a concrete line with one known and one missing travel
time. -/
theorem c4_running_activities_witness :
    (⟨(1, Dir.F, "x", EType.D), (1, Dir.F, "y", EType.A), "running",
        5, 5, 100⟩ : Activity) ∈
      runningActivities [(("x", "y"), 5)] [(1, ["x", "y", "z"])] := by
  have h := (c4_running_activities [(("x", "y"), 5)] [(1, ["x", "y", "z"])]).2
    1 ["x", "y", "z"] (by decide) Dir.F "x" "y" (by decide)
  exact h.1 5 (by decide)

/-! ## Monte Carlo robustness simulation
(`solve_1.2b_cvrp.py`, `solve_1.2c_cvrp.py`) -/

/-- `int(math.floor(0.9 * q))` in exact arithmetic: `⌊9q/10⌋`.  (For the
integer magnitudes occurring here the Python float computation agrees with
the exact value.) -/
def loBound (q : ℤ) : ℤ := (9 * q).fdiv 10

/-- `int(math.ceil(1.1 * q))` in exact arithmetic: `⌈11q/10⌉ = ⌊(11q+9)/10⌋`. -/
def hiBound (q : ℤ) : ℤ := (11 * q + 9).fdiv 10

/-- Semantics of `rng.integers(lo, hi + 1)`: some value of `[lo, hi]`,
determined by the underlying draw `u`.  Every value of the range is realised
by some `u`, and (for `lo ≤ hi`) every `u` lands in the range. -/
def integersDraw (lo hi : ℤ) (u : ℕ) : ℤ := lo + (u : ℤ) % (hi + 1 - lo)

/-- The sampling loop shared by `simulate_12b`, `simulate_k_and_get_worst` and
`sample_demands`: `q_tilde = np.zeros(n + 1)`; for `i in range(1, n + 1)`,
`q_tilde[i] = rng.integers(floor(0.9 * q[i]), ceil(1.1 * q[i]) + 1)`.
`u i` is the draw used for customer `i`. -/
def sampleDemands (qnom : List ℤ) (u : ℕ → ℕ) : List ℤ :=
  0 :: ((List.range (qnom.length - 1)).map fun j =>
    integersDraw (loBound (qnom.getD (j + 1) 0)) (hiBound (qnom.getD (j + 1) 0))
      (u (j + 1)))

/-- `cust = [i for i in r if i != 0]; load = q_tilde[cust].sum()`. -/
def routeLoad (qt : List ℤ) (r : List Nat) : ℤ :=
  ((r.filter fun i => i ≠ 0).map fun i => qt.getD i 0).sum

/-- Per-route violation `max(0, load - Q)`. -/
def routeViol (Q : ℤ) (qt : List ℤ) (r : List Nat) : ℤ :=
  max 0 (routeLoad qt r - Q)

/-- The accumulation `V = 0; for r in routes: V += max(0, load - Q)`. -/
def simTotalV (routes : List (List Nat)) (Q : ℤ) (qt : List ℤ) : ℤ :=
  routes.foldl (fun V r => V + routeViol Q qt r) 0

lemma foldl_add_eq_sum (f : List Nat → ℤ) (l : List (List Nat)) (a : ℤ) :
    l.foldl (fun V r => V + f r) a = a + (l.map f).sum := by
  induction l generalizing a with
  | nil => simp
  | cons r rest ih => simp [ih, add_assoc]

lemma simTotalV_eq_sum (routes : List (List Nat)) (Q : ℤ) (qt : List ℤ) :
    simTotalV routes Q qt = (routes.map (routeViol Q qt)).sum := by
  simp [simTotalV, foldl_add_eq_sum]

lemma simTotalV_nonneg (routes : List (List Nat)) (Q : ℤ) (qt : List ℤ) :
    0 ≤ simTotalV routes Q qt := by
  rw [simTotalV_eq_sum]
  refine List.sum_nonneg ?_
  intro x hx
  obtain ⟨r, -, rfl⟩ := List.mem_map.mp hx
  exact le_max_left 0 _

lemma integersDraw_bounds {lo hi : ℤ} (h : lo ≤ hi) (u : ℕ) :
    lo ≤ integersDraw lo hi u ∧ integersDraw lo hi u ≤ hi := by
  have hpos : (0 : ℤ) < hi + 1 - lo := by omega
  have h1 : 0 ≤ (u : ℤ) % (hi + 1 - lo) := Int.emod_nonneg _ (by omega)
  have h2 : (u : ℤ) % (hi + 1 - lo) < hi + 1 - lo := Int.emod_lt_of_pos _ hpos
  unfold integersDraw
  omega

lemma loBound_le_hiBound {q : ℤ} (h : 0 ≤ q) : loBound q ≤ hiBound q := by
  unfold loBound hiBound
  rw [Int.fdiv_eq_ediv _ (by norm_num), Int.fdiv_eq_ediv _ (by norm_num)]
  exact Int.ediv_le_ediv (by norm_num) (by omega)

lemma sampleDemands_getD (qnom : List ℤ) (u : ℕ → ℕ) {i : ℕ} (h1 : 1 ≤ i)
    (h2 : i ≤ qnom.length - 1) :
    (sampleDemands qnom u).getD i 0 =
      integersDraw (loBound (qnom.getD i 0)) (hiBound (qnom.getD i 0)) (u i) := by
  obtain ⟨j, rfl⟩ : ∃ j, i = j + 1 := ⟨i - 1, by omega⟩
  have hj : j < qnom.length - 1 := by omega
  have hjlen : j < ((List.range (qnom.length - 1)).map fun j =>
      integersDraw (loBound (qnom.getD (j + 1) 0)) (hiBound (qnom.getD (j + 1) 0))
        (u (j + 1))).length := by simpa using hj
  rw [sampleDemands, List.getD_cons_succ, List.getD_eq_getElem _ _ hjlen,
    List.getElem_map, List.getElem_range]

/-- **C5.** Every sampled demand is an integer between `floor(0.9 * q_i)` and
`ceil(1.1 * q_i)`; the total violation of a sample is the sum over routes of
`max(0, load - Q)`; and it is `0` exactly when every route's sampled load is
at most the capacity `Q`. -/
theorem c5_simulation_bounds (qnom : List ℤ) (u : ℕ → ℕ)
    (routes : List (List Nat)) (Q : ℤ) (hq : ∀ q ∈ qnom, 0 ≤ q) :
    (∀ i, 1 ≤ i → i ≤ qnom.length - 1 →
      loBound (qnom.getD i 0) ≤ (sampleDemands qnom u).getD i 0 ∧
      (sampleDemands qnom u).getD i 0 ≤ hiBound (qnom.getD i 0)) ∧
    simTotalV routes Q (sampleDemands qnom u) =
      (routes.map fun r =>
        max 0 (routeLoad (sampleDemands qnom u) r - Q)).sum ∧
    (simTotalV routes Q (sampleDemands qnom u) = 0 ↔
      ∀ r ∈ routes, routeLoad (sampleDemands qnom u) r ≤ Q) := by
  refine ⟨?_, simTotalV_eq_sum .., ?_⟩
  · intro i hi1 hi2
    have hmem : qnom.getD i 0 ∈ qnom := by
      have hlt : i < qnom.length := by omega
      rw [List.getD_eq_getElem _ _ hlt]
      exact List.getElem_mem hlt
    rw [sampleDemands_getD qnom u hi1 hi2]
    exact integersDraw_bounds (loBound_le_hiBound (hq _ hmem)) (u i)
  · rw [simTotalV_eq_sum]
    induction routes with
    | nil => simp
    | cons r rest ih =>
        simp only [List.map_cons, List.sum_cons, List.mem_cons]
        constructor
        · intro h0
          have hr : 0 ≤ routeViol Q (sampleDemands qnom u) r := le_max_left 0 _
          have hrest : 0 ≤ (rest.map (routeViol Q (sampleDemands qnom u))).sum := by
            refine List.sum_nonneg ?_
            intro x hx
            obtain ⟨r', -, rfl⟩ := List.mem_map.mp hx
            exact le_max_left 0 _
          have h1 : routeViol Q (sampleDemands qnom u) r = 0 := by omega
          have h2 := ih.mp (by omega)
          intro r' hr'
          rcases hr' with rfl | hr'
          · have := h1
            unfold routeViol at this
            omega
          · exact h2 r' hr'
        · intro hall
          have h1 : routeViol Q (sampleDemands qnom u) r = 0 := by
            have := hall r (Or.inl rfl)
            unfold routeViol
            omega
          have h2 := ih.mpr (fun r' hr' => hall r' (Or.inr hr'))
          omega

/-- Witness for C5: nominal demands `[0, 10]`, capacity `9`, one route
serving customer 1, zero draws. -/
theorem c5_simulation_bounds_witness :
    loBound ([(0 : ℤ), 10].getD 1 0) ≤
        (sampleDemands [0, 10] (fun _ => 0)).getD 1 0 ∧
      (simTotalV [[0, 1, 0]] 9 (sampleDemands [0, 10] (fun _ => 0)) = 0 ↔
        ∀ r ∈ [[0, 1, 0]],
          routeLoad (sampleDemands [0, 10] (fun _ => 0)) r ≤ 9) := by
  have h := c5_simulation_bounds [0, 10] (fun _ => 0) [[0, 1, 0]] 9
    (by intro q hq; fin_cases hq <;> decide)
  exact ⟨(h.1 1 (by decide) (by decide)).1, h.2.2⟩

/-! ## Cutting-plane scenario loop (`solve_1.2c_cvrp.py`, `run_cutting_plane`) -/

/-- A demand scenario: the full vector with depot at index 0
(`np.array_equal` on such vectors is list equality). -/
abbrev Scenario := List ℤ

/-- The tracking loop of `simulate_k_and_get_worst`: `worst_V = -1`,
`worst_q = None`; for `t in range(k)` sample `q_tilde`, compute its total
violation `V` and update the pair whenever `V > worst_V`.  `u t i` is the draw
used in sample `t` for customer `i`.  Returns `(worst_V, worst_q)`. -/
def simulateWorst (routes : List (List Nat)) (Q : ℤ) (qnom : Scenario)
    (u : ℕ → ℕ → ℕ) (k : ℕ) : ℤ × Option Scenario :=
  (List.range k).foldl
    (fun st t =>
      let qt := sampleDemands qnom (u t)
      let V := simTotalV routes Q qt
      if st.1 < V then (V, some qt) else st)
    (-1, none)

/-- Lines 204–221 of `run_cutting_plane`: if `worst_V > 0` and the worst
scenario is not already an element of `S` (checked with `np.array_equal`),
append it to `S`; otherwise leave `S` unchanged. -/
def cutStep (routes : List (List Nat)) (Q : ℤ) (qnom : Scenario)
    (u : ℕ → ℕ → ℕ) (k : ℕ) (S : List Scenario) : List Scenario :=
  let sim := simulateWorst routes Q qnom u k
  if 0 < sim.1 then
    match sim.2 with
    | none => S
    | some wq => if wq ∈ S then S else S ++ [wq]
  else S

/-- `run_cutting_plane`: `S = [q_nom.copy()]`, then one `cutStep` per
iteration.  The routes of each iteration come from the external solver's
incumbent solution and are abstract inputs here; `its` lists, per iteration,
the extracted routes and the iteration's rng draws.  (An iteration on which
the solver finds no feasible solution breaks the loop, i.e. truncates
`its`.) -/
def runCuttingPlane (Q : ℤ) (qnom : Scenario)
    (its : List ((List (List Nat)) × (ℕ → ℕ → ℕ))) (k : ℕ) : List Scenario :=
  its.foldl (fun S it => cutStep it.1 Q qnom it.2 k S) [qnom]

lemma simulateWorst_some {routes : List (List Nat)} {Q : ℤ} {qnom : Scenario}
    {u : ℕ → ℕ → ℕ} {k : ℕ} {wq : Scenario}
    (h : (simulateWorst routes Q qnom u k).2 = some wq) :
    simTotalV routes Q wq = (simulateWorst routes Q qnom u k).1 := by
  unfold simulateWorst at *
  generalize List.range k = l at *
  suffices H : ∀ (st : ℤ × Option Scenario),
      (∀ q, st.2 = some q → simTotalV routes Q q = st.1) →
      ∀ q, (l.foldl (fun st t =>
        let qt := sampleDemands qnom (u t)
        let V := simTotalV routes Q qt
        if st.1 < V then (V, some qt) else st) st).2 = some q →
      simTotalV routes Q q =
        (l.foldl (fun st t =>
          let qt := sampleDemands qnom (u t)
          let V := simTotalV routes Q qt
          if st.1 < V then (V, some qt) else st) st).1 by
    exact H (-1, none) (by simp) wq h
  clear h
  induction l with
  | nil => intro st hst q hq; exact hst q hq
  | cons t rest ih =>
      intro st hst q hq
      refine ih _ ?_ q hq
      intro q' hq'
      by_cases hcmp : st.1 < simTotalV routes Q (sampleDemands qnom (u t))
      · simp only [List.foldl_cons] at hq' ⊢
        simp only [if_pos hcmp] at hq' ⊢
        simp only [Option.some.injEq] at hq'
        rw [← hq']
      · simp only [if_neg hcmp] at hq' ⊢
        exact hst q' hq'

lemma cutStep_cases (routes : List (List Nat)) (Q : ℤ) (qnom : Scenario)
    (u : ℕ → ℕ → ℕ) (k : ℕ) (S : List Scenario) :
    cutStep routes Q qnom u k S = S ∨
      ∃ e, cutStep routes Q qnom u k S = S ++ [e] ∧ e ∉ S ∧
        0 < simTotalV routes Q e := by
  unfold cutStep
  by_cases hV : 0 < (simulateWorst routes Q qnom u k).1
  · rcases hopt : (simulateWorst routes Q qnom u k).2 with - | wq
    · left
      simp [hV, hopt]
    · by_cases hdup : wq ∈ S
      · left
        simp [hV, hopt, hdup]
      · right
        refine ⟨wq, ?_, hdup, ?_⟩
        · simp [hV, hopt, hdup]
        · rw [simulateWorst_some hopt]
          exact hV
  · left
    simp [hV]

lemma runCuttingPlane_invariant (Q : ℤ) (qnom : Scenario)
    (its : List ((List (List Nat)) × (ℕ → ℕ → ℕ))) (k : ℕ) :
    (runCuttingPlane Q qnom its k).head? = some qnom ∧
      (runCuttingPlane Q qnom its k).Nodup := by
  unfold runCuttingPlane
  suffices H : ∀ (S : List Scenario), S.head? = some qnom → S.Nodup →
      (its.foldl (fun S it => cutStep it.1 Q qnom it.2 k S) S).head? = some qnom ∧
      (its.foldl (fun S it => cutStep it.1 Q qnom it.2 k S) S).Nodup by
    exact H [qnom] rfl (List.nodup_singleton qnom)
  induction its with
  | nil => intro S h1 h2; exact ⟨h1, h2⟩
  | cons it rest ih =>
      intro S h1 h2
      simp only [List.foldl_cons]
      rcases cutStep_cases it.1 Q qnom it.2 k S with hc | ⟨e, hc, he, -⟩
      · rw [hc]
        exact ih S h1 h2
      · refine ih _ ?_ ?_
        · rw [hc]
          cases S with
          | nil => cases h1
          | cons a S' => simpa using h1
        · rw [hc]
          simpa [List.nodup_append] using ⟨h2, fun h => he h⟩

/-- **C2.** Throughout `run_cutting_plane` the scenario set has the nominal
demand vector as first element and contains no duplicates; each iteration
either leaves it unchanged or appends exactly one scenario, and a scenario is
appended only when it is not already in the set and its simulated total
violation (on that iteration's routes) is strictly positive. -/
theorem c2_cutting_plane_invariants (Q : ℤ) (qnom : Scenario)
    (its : List ((List (List Nat)) × (ℕ → ℕ → ℕ)))
    (it : (List (List Nat)) × (ℕ → ℕ → ℕ)) (k : ℕ) :
    (runCuttingPlane Q qnom its k).head? = some qnom ∧
    (runCuttingPlane Q qnom its k).Nodup ∧
    (runCuttingPlane Q qnom (its ++ [it]) k = runCuttingPlane Q qnom its k ∨
      ∃ e, runCuttingPlane Q qnom (its ++ [it]) k =
          runCuttingPlane Q qnom its k ++ [e] ∧
        e ∉ runCuttingPlane Q qnom its k ∧ 0 < simTotalV it.1 Q e) ∧
    (runCuttingPlane Q qnom (its ++ [it]) k).length ≤
      (runCuttingPlane Q qnom its k).length + 1 := by
  obtain ⟨h1, h2⟩ := runCuttingPlane_invariant Q qnom its k
  have hstep : runCuttingPlane Q qnom (its ++ [it]) k =
      cutStep it.1 Q qnom it.2 k (runCuttingPlane Q qnom its k) := by
    unfold runCuttingPlane
    rw [List.foldl_append]
    rfl
  refine ⟨h1, h2, ?_, ?_⟩
  · rw [hstep]
    exact cutStep_cases ..
  · rw [hstep]
    rcases cutStep_cases it.1 Q qnom it.2 k (runCuttingPlane Q qnom its k) with
      hc | ⟨e, hc, -, -⟩
    · rw [hc]; omega
    · rw [hc]; simp

/-- Witness for C2 on a concrete run: nominal demands `[0, 5]`, one iteration
with a single route, one sample, zero draws. -/
theorem c2_cutting_plane_invariants_witness :
    (runCuttingPlane 10 [0, 5] [([[0, 1, 0]], fun _ _ => 0)] 1).head? =
        some [0, 5] ∧
      (runCuttingPlane 10 [0, 5] [([[0, 1, 0]], fun _ _ => 0)] 1).Nodup := by
  have h := c2_cutting_plane_invariants 10 [0, 5]
    [([[0, 1, 0]], fun _ _ => 0)] ([[0, 1, 0]], fun _ _ => 0) 1
  exact ⟨h.1, h.2.1⟩

/-! ## Script effect traces (`solve_1.2b_cvrp.py` `__main__`) -/

/-- Externally visible actions a script can perform: reading a data file,
constructing an optimization model, invoking the external solver, and
printing a report line. -/
inductive Effect where
  | loadFile (path : String)
  | buildModel
  | solverInvoke
  | printLine
deriving DecidableEq, Repr

/-- The hard-coded `ROUTES` of `solve_1.2b_cvrp.py`. -/
def ROUTES : List (List Nat) :=
  [[0, 1, 11, 22, 7, 14, 25, 0],
   [0, 8, 10, 6, 17, 4, 23, 0],
   [0, 9, 0],
   [0, 15, 18, 19, 12, 16, 20, 0],
   [0, 21, 5, 3, 24, 2, 13, 0]]

/-- `simulate_12b`: `k` sampled scenarios, their total violations, the count
of samples with positive violation and the maximum violation (the printed
float average is the integer sum divided by `k` and is elided).  `u t i` is
the rng draw of sample `t` for customer `i`. -/
def simulate12b (routes : List (List Nat)) (Q : ℤ) (qnom : List ℤ)
    (u : ℕ → ℕ → ℕ) (k : ℕ) : ℕ × ℤ :=
  let totals := (List.range k).map fun t =>
    simTotalV routes Q (sampleDemands qnom (u t))
  (totals.countP (fun V => 0 < V), totals.foldl max 0)

/-- The `__main__` block of `solve_1.2b_cvrp.py`: read `instance.txt`, run
`simulate_12b` on the hard-coded `ROUTES`, print the six report lines.  No
optimization model is built and no solver is invoked. -/
def script12bRun (Q : ℤ) (qnom : List ℤ) (u : ℕ → ℕ → ℕ) (k : ℕ) :
    List Effect × (ℕ × ℤ) :=
  ([Effect.loadFile "instance.txt", Effect.printLine, Effect.printLine,
    Effect.printLine, Effect.printLine, Effect.printLine, Effect.printLine],
   simulate12b ROUTES Q qnom u k)

/-- **C3, counterexample.** The claim says every script invokes the external
solver, but `solve_1.2b_cvrp.py` performs no solver invocation and builds no
optimization model: on the concrete instance `Q = 103`,
`q_nom = [0, 10, 20]`, zero draws and `k = 2`, its effect trace contains
neither a solver call nor a model construction. -/
theorem c3_counterexample :
    Effect.solverInvoke ∉ (script12bRun 103 [0, 10, 20] (fun _ _ => 0) 2).1 ∧
    Effect.buildModel ∉ (script12bRun 103 [0, 10, 20] (fun _ _ => 0) 2).1 := by
  constructor <;> · intro h; simp [script12bRun] at h

/-- **C3, amended.** Not every script invokes the external solver: the
simulation script `solve_1.2b_cvrp.py` loads its dataset (`instance.txt`)
and prints a formatted report, but constructs no optimization model and never
invokes the solver, for every instance and rng realisation. -/
theorem c3_scripts_amended (Q : ℤ) (qnom : List ℤ) (u : ℕ → ℕ → ℕ) (k : ℕ) :
    (script12bRun Q qnom u k).1.head? = some (Effect.loadFile "instance.txt") ∧
    Effect.printLine ∈ (script12bRun Q qnom u k).1 ∧
    Effect.solverInvoke ∉ (script12bRun Q qnom u k).1 ∧
    Effect.buildModel ∉ (script12bRun Q qnom u k).1 := by
  refine ⟨rfl, ?_, ?_, ?_⟩
  · simp [script12bRun]
  · intro h; simp [script12bRun] at h
  · intro h; simp [script12bRun] at h

/-- Witness for the amended C3 at a concrete instance. -/
theorem c3_scripts_amended_witness :
    Effect.solverInvoke ∉ (script12bRun 50 [0, 7] (fun _ _ => 1) 1).1 :=
  (c3_scripts_amended 50 [0, 7] (fun _ _ => 1) 1).2.2.1

/-! ## Shapley values (`solve_2.1(d).py`) -/

/-- The three companies `'A'`, `'B'`, `'C'`. -/
inductive Company where
  | A
  | B
  | C
deriving DecidableEq, Repr

/-- Alphabetical order of the company names, as used by Python's `sorted`. -/
def companyRank : Company → ℕ
  | .A => 0
  | .B => 1
  | .C => 2

/-- `all_companies = ['A', 'B', 'C']`. -/
def allCompanies : List Company := [.A, .B, .C]

/-- `itertools.combinations(l, r)`, in its emission order. -/
def combinationsR : ℕ → List Company → List (List Company)
  | 0, _ => [[]]
  | _ + 1, [] => []
  | r + 1, x :: xs =>
      ((combinationsR r xs).map (x :: ·)) ++ combinationsR (r + 1) xs

/-- The coalition-cost dict `v` (solver outputs; arbitrary rationals here).
The printed floats are modelled exactly as rationals. -/
structure CoalitionCost where
  vA : ℚ
  vB : ℚ
  vC : ℚ
  vAB : ℚ
  vAC : ℚ
  vBC : ℚ
  vABC : ℚ

/-- `v[S] if S in v else 0.0`: the dict holds the seven nonempty sorted
coalitions; any other key (in particular the empty coalition) yields `0`. -/
def coalitionValue (v : CoalitionCost) : List Company → ℚ
  | [.A] => v.vA
  | [.B] => v.vB
  | [.C] => v.vC
  | [.A, .B] => v.vAB
  | [.A, .C] => v.vAC
  | [.B, .C] => v.vBC
  | [.A, .B, .C] => v.vABC
  | _ => 0

/-- `tuple(sorted(...))` on a list of company names. -/
def sortCompanies (l : List Company) : List Company :=
  l.insertionSort fun a b => companyRank a ≤ companyRank b

/-- `weight = (math.factorial(s) * math.factorial(N - s - 1)) / math.factorial(N)`
with `N = 3`. -/
def weightQ (s : ℕ) : ℚ :=
  ((Nat.factorial s : ℚ) * (Nat.factorial (3 - s - 1) : ℚ)) /
    (Nat.factorial 3 : ℚ)

/-- The Shapley value of company `i`: sum over all subsets `S` of the other
companies (enumerated by size `r = 0 .. len(remaining)`) of
`weight(|S|) * (v[sorted(S ∪ {i})] - v[S])`. -/
def shapleyValue (v : CoalitionCost) (i : Company) : ℚ :=
  let remaining := allCompanies.filter fun c => c ≠ i
  let Slist := (List.range (remaining.length + 1)).flatMap fun r =>
    combinationsR r remaining
  (Slist.map fun S =>
    weightQ S.length *
      (coalitionValue v (sortCompanies (S ++ [i])) - coalitionValue v S)).sum

/-- **C6.** For every assignment of coalition costs (with the empty coalition
valued `0`), the three Shapley values computed by the script sum exactly to
the grand-coalition cost `v({A, B, C})`. -/
theorem c6_shapley_efficiency (v : CoalitionCost) :
    shapleyValue v .A + shapleyValue v .B + shapleyValue v .C =
      coalitionValue v [.A, .B, .C] := by
  simp only [shapleyValue, allCompanies, List.filter, List.range,
    List.range.loop, List.flatMap, combinationsR, List.map, List.append_nil,
    List.flatten, List.sum_cons, List.sum_nil, List.length_nil,
    List.length_cons, List.cons_append, List.nil_append, sortCompanies,
    List.insertionSort, List.orderedInsert, companyRank, weightQ]
  norm_num [Nat.factorial, coalitionValue]
  ring

/-- C6 evaluated at a concrete cost assignment (stand-alone costs 4, 5, 6,
pairwise 7, 8, 9, grand coalition 10). -/
theorem c6_shapley_efficiency_witness :
    shapleyValue ⟨4, 5, 6, 7, 8, 9, 10⟩ .A + shapleyValue ⟨4, 5, 6, 7, 8, 9, 10⟩ .B +
        shapleyValue ⟨4, 5, 6, 7, 8, 9, 10⟩ .C =
      coalitionValue ⟨4, 5, 6, 7, 8, 9, 10⟩ [.A, .B, .C] :=
  c6_shapley_efficiency ⟨4, 5, 6, 7, 8, 9, 10⟩

/-! ## Route-based CVRP coverage check (`solve_part1a_cvrp.py`) -/

/-- `read_routes`: from each parsed line of `routes.txt` (a list of
integers), the customers of the route:
`set(v for v in parts[2:] if v != 0 and 1 <= v <= n_customers)`.
The set is used only for membership tests, so it is kept as the filtered
list. -/
def readRoutesCusts (rows : List (List ℤ)) (n : ℕ) : List (List ℤ) :=
  rows.map fun parts =>
    (parts.drop 2).filter fun v => decide (v ≠ 0 ∧ 1 ≤ v ∧ v ≤ (n : ℤ))

/-- `cover[i]`: the routes (by index, in order) whose customer set contains
`i`. -/
def coverList (custs : List (List ℤ)) (i : ℕ) : List ℕ :=
  (List.range custs.length).filter fun r => decide ((i : ℤ) ∈ custs.getD r [])

/-- The check loop `for i in range(1, n + 1): if not cover[i]: raise
ValueError(f"Customer {i} is not covered by any route")`: the first uncovered
customer, if any. -/
def firstUncovered (custs : List (List ℤ)) (n : ℕ) : Option ℕ :=
  (List.range' 1 n).find? fun i => decide (coverList custs i = [])

/-- `main()` of `solve_part1a_cvrp.py` as an effect trace paired with the
raised `ValueError` message (if any): read `instance.txt` and `routes.txt`,
build the cover lists, raise on the first uncovered customer; only otherwise
construct the Gurobi model, optimize and print the report line. -/
def part1aMain (capacity : ℤ) (demands : List ℤ) (rows : List (List ℤ)) :
    List Effect × Option String :=
  let n := demands.length
  let custs := readRoutesCusts rows n
  match firstUncovered custs n with
  | some i =>
      ([Effect.loadFile "instance.txt", Effect.loadFile "routes.txt"],
       some s!"Customer {i} is not covered by any route")
  | none =>
      ([Effect.loadFile "instance.txt", Effect.loadFile "routes.txt",
        Effect.buildModel, Effect.solverInvoke, Effect.printLine], none)

lemma coverList_eq_nil {custs : List (List ℤ)} {i : ℕ} :
    coverList custs i = [] ↔ ∀ c ∈ custs, (i : ℤ) ∉ c := by
  unfold coverList
  rw [List.filter_eq_nil_iff]
  constructor
  · intro h c hc
    obtain ⟨r, hr, rfl⟩ := List.getElem_of_mem hc
    have := h r (List.mem_range.mpr hr)
    rw [List.getD_eq_getElem _ _ hr] at this
    simpa using this
  · intro h r hr
    have hrlen : r < custs.length := List.mem_range.mp hr
    rw [List.getD_eq_getElem _ _ hrlen]
    simpa using h _ (List.getElem_mem hrlen)

/-- **C7.** In the route-based CVRP script, after parsing `instance.txt` and
`routes.txt`, the `ValueError` is raised exactly when some customer
`i ∈ 1..n` appears in no parsed route, the message names such a customer, and
when it is raised no optimization model has been constructed and the solver
has not been invoked. -/
theorem c7_coverage_error (capacity : ℤ) (demands : List ℤ)
    (rows : List (List ℤ)) :
    ((part1aMain capacity demands rows).2 ≠ none ↔
      ∃ i, 1 ≤ i ∧ i ≤ demands.length ∧
        ∀ c ∈ readRoutesCusts rows demands.length, (i : ℤ) ∉ c) ∧
    (∀ m, (part1aMain capacity demands rows).2 = some m →
      ∃ i, 1 ≤ i ∧ i ≤ demands.length ∧
        (∀ c ∈ readRoutesCusts rows demands.length, (i : ℤ) ∉ c) ∧
        m = s!"Customer {i} is not covered by any route") ∧
    ((part1aMain capacity demands rows).2 ≠ none →
      Effect.buildModel ∉ (part1aMain capacity demands rows).1 ∧
      Effect.solverInvoke ∉ (part1aMain capacity demands rows).1) := by
  rcases h : firstUncovered (readRoutesCusts rows demands.length)
      demands.length with - | i
  · refine ⟨?_, ?_, ?_⟩
    · constructor
      · intro hne
        exact absurd (by simp [part1aMain, h]) hne
      · rintro ⟨i, h1, h2, h3⟩
        unfold firstUncovered at h
        have hnone := List.find?_eq_none.mp h i
          (List.mem_range'_1.mpr ⟨h1, by omega⟩)
        exact absurd (decide_eq_true (coverList_eq_nil.mpr h3)) hnone
    · intro m hm
      rw [show (part1aMain capacity demands rows).2 = none by
        simp [part1aMain, h]] at hm
      cases hm
    · intro hne
      exact absurd (by simp [part1aMain, h]) hne
  · unfold firstUncovered at h
    have hpi : coverList (readRoutesCusts rows demands.length) i = [] := by
      have hpt := List.find?_some h
      simpa using hpt
    have hmem : i ∈ List.range' 1 demands.length := List.mem_of_find?_eq_some h
    obtain ⟨hi1, hi2⟩ := List.mem_range'_1.mp hmem
    have hiprop : 1 ≤ i ∧ i ≤ demands.length ∧
        ∀ c ∈ readRoutesCusts rows demands.length, (i : ℤ) ∉ c :=
      ⟨hi1, by omega, coverList_eq_nil.mp hpi⟩
    have hsnd : (part1aMain capacity demands rows).2 =
        some s!"Customer {i} is not covered by any route" := by
      simp [part1aMain, firstUncovered, h]
    have hfst : (part1aMain capacity demands rows).1 =
        [Effect.loadFile "instance.txt", Effect.loadFile "routes.txt"] := by
      simp [part1aMain, firstUncovered, h]
    refine ⟨?_, ?_, ?_⟩
    · exact ⟨fun _ => ⟨i, hiprop⟩, fun _ => by rw [hsnd]; simp⟩
    · intro m hm
      rw [hsnd] at hm
      obtain rfl : m = s!"Customer {i} is not covered by any route" := by
        simpa using hm.symm
      exact ⟨i, hiprop.1, hiprop.2.1, hiprop.2.2, rfl⟩
    · intro hne
      rw [hfst]
      constructor <;> · intro hmem'; simp at hmem'

/-- Witness for C7: two customers, a single route covering only customer 1,
so customer 2 is uncovered, the error is raised and no model is built. -/
theorem c7_coverage_error_witness :
    (part1aMain 10 [5, 3] [[10, 0, 0, 1, 0]]).2 ≠ none ∧
    Effect.solverInvoke ∉ (part1aMain 10 [5, 3] [[10, 0, 0, 1, 0]]).1 := by
  have h := c7_coverage_error 10 [5, 3] [[10, 0, 0, 1, 0]]
  have hne : (part1aMain 10 [5, 3] [[10, 0, 0, 1, 0]]).2 ≠ none := by
    refine h.1.mpr ⟨2, by omega, by decide, ?_⟩
    intro c hc
    fin_cases hc
    decide
  exact ⟨hne, (h.2.2 hne).2⟩

/-! ## Refill recourse (`solve_1.2d_cvrp.py` / `solve_1.2e_cvrp.py`,
`apply_refill_recourse`) -/

/-- `base_cost = sum(C[a, b] for a, b in zip(route[:-1], route[1:]))`. -/
def baseCost (C : Nat → Nat → ℤ) (route : List Nat) : ℤ :=
  ((route.zip route.tail).map fun ab => C ab.1 ab.2).sum

/-- The inner `while rem > 0` loop: each pass adds the depot round trip
`C[node, 0] + C[0, node]` to `extra`, resets `cap = Q`, serves
`take = min(cap, rem)` and decreases `rem` and `cap` by `take`.  The loop has
no structural bound, so it is given explicit fuel; `none` means the fuel was
exhausted with `rem` still positive.  Returns `(cap, extra)` on exit. -/
def refillLoop (dN0 d0N Q : ℤ) : ℕ → ℤ → ℤ → ℤ → Option (ℤ × ℤ)
  | fuel, rem, cap, extra =>
    if 0 < rem then
      match fuel with
      | 0 => none
      | fuel' + 1 =>
          let extra' := extra + dN0 + d0N
          let cap' := Q
          let take := min cap' rem
          refillLoop dN0 d0N Q fuel' (rem - take) (cap' - take) extra'
    else some (cap, extra)

/-- The `for node in route[1:]` loop of `apply_refill_recourse`: stop at the
returning depot (`break` on `node == 0`); serve a customer fully when
`demand <= cap`, otherwise serve partially (`rem = demand - cap; cap = 0`) and
run the refill loop, whose fuel `rem.toNat` is sufficient whenever `Q ≥ 1`.
Returns the accumulated `extra`, or `none` if a refill loop failed to
terminate within its fuel. -/
def serveLoop (q : Nat → ℤ) (C : Nat → Nat → ℤ) (Q : ℤ) :
    List Nat → ℤ → ℤ → Option ℤ
  | [], _, extra => some extra
  | node :: rest, cap, extra =>
    if node = 0 then some extra
    else
      let demand := q node
      if demand ≤ cap then serveLoop q C Q rest (cap - demand) extra
      else
        let rem := demand - cap
        match refillLoop (C node 0) (C 0 node) Q rem.toNat rem 0 extra with
        | none => none
        | some capExtra => serveLoop q C Q rest capExtra.1 capExtra.2

/-- `apply_refill_recourse(route, q_tilde, Q, C)`:
`(base_cost, base_cost + extra, extra)`. -/
def applyRefillRecourse (route : List Nat) (q : Nat → ℤ) (Q : ℤ)
    (C : Nat → Nat → ℤ) : Option (ℤ × ℤ × ℤ) :=
  match serveLoop q C Q route.tail Q 0 with
  | none => none
  | some extra => some (baseCost C route, baseCost C route + extra, extra)

lemma refillLoop_terminates (dN0 d0N : ℤ) {Q : ℤ} (hQ : 1 ≤ Q) :
    ∀ (fuel : ℕ) (rem cap extra : ℤ), rem ≤ (fuel : ℤ) →
      ∃ r, refillLoop dN0 d0N Q fuel rem cap extra = some r := by
  intro fuel
  induction fuel with
  | zero =>
      intro rem cap extra hrem
      rw [refillLoop]
      rw [if_neg (by omega)]
      exact ⟨(cap, extra), rfl⟩
  | succ f ih =>
      intro rem cap extra hrem
      rw [refillLoop]
      by_cases h : 0 < rem
      · rw [if_pos h]
        have htake : min Q rem ≥ 1 := by omega
        exact ih _ _ _ (by omega)
      · rw [if_neg h]
        exact ⟨(cap, extra), rfl⟩

lemma refillLoop_zero_cap_none (dN0 d0N : ℤ) :
    ∀ (fuel : ℕ) (rem cap extra : ℤ), 0 < rem →
      refillLoop dN0 d0N (0 : ℤ) fuel rem cap extra = none := by
  intro fuel
  induction fuel with
  | zero =>
      intro rem cap extra hrem
      rw [refillLoop, if_pos hrem]
  | succ f ih =>
      intro rem cap extra hrem
      rw [refillLoop, if_pos hrem]
      have hmin : min (0 : ℤ) rem = 0 := by omega
      simp only [hmin, sub_zero]
      exact ih rem 0 _ hrem

lemma serveLoop_no_refill (q : Nat → ℤ) (C : Nat → Nat → ℤ) (Q : ℤ)
    (hq : ∀ i, 0 ≤ q i) :
    ∀ (l : List Nat) (cap extra : ℤ),
      ((l.takeWhile fun i => i ≠ 0).map q).sum ≤ cap →
      serveLoop q C Q l cap extra = some extra := by
  intro l
  induction l with
  | nil => intro cap extra hsum; rfl
  | cons node rest ih =>
      intro cap extra hsum
      by_cases hnode : node = 0
      · rw [serveLoop, if_pos hnode]
      · rw [List.takeWhile_cons] at hsum
        rw [if_pos (by simpa using hnode)] at hsum
        simp only [List.map_cons, List.sum_cons] at hsum
        have hrest : 0 ≤ ((rest.takeWhile fun i => i ≠ 0).map q).sum := by
          refine List.sum_nonneg ?_
          intro x hx
          obtain ⟨i, -, rfl⟩ := List.mem_map.mp hx
          exact hq i
        rw [serveLoop, if_neg hnode, if_pos (by omega)]
        exact ih _ _ (by omega)

lemma takeWhile_sublist_filter (p : Nat → Bool) (l : List Nat) :
    (l.takeWhile p).Sublist (l.filter p) := by
  induction l with
  | nil => simp
  | cons a rest ih =>
      by_cases hpa : p a = true
      · rw [List.takeWhile_cons, List.filter_cons, if_pos hpa, if_pos hpa]
        exact ih.cons₂ a
      · rw [List.takeWhile_cons, List.filter_cons, if_neg hpa, if_neg hpa]
        exact List.nil_sublist _

lemma takeWhile_map_sum_le (q : Nat → ℤ) (hq : ∀ i, 0 ≤ q i) (l : List Nat) :
    ((l.takeWhile fun i => i ≠ 0).map q).sum ≤
      ((l.filter fun i => i ≠ 0).map q).sum := by
  refine List.Sublist.sum_le_sum
    ((takeWhile_sublist_filter (fun i => i ≠ 0) l).map q) ?_
  intro a ha
  obtain ⟨i, -, rfl⟩ := List.mem_map.mp ha
  exact hq i

/-- **C8.** For a route that starts and ends at the depot and a nonnegative
demand vector whose total over the route's customers is at most the capacity
`Q`, `apply_refill_recourse` performs no refill trip: `extra = 0` and the
recourse cost equals the base cost, the sum of arc distances along the
route. -/
theorem c8_no_refill_within_capacity (route : List Nat) (q : Nat → ℤ) (Q : ℤ)
    (C : Nat → Nat → ℤ) (hstart : route.head? = some 0)
    (hend : route.getLast? = some 0) (hq : ∀ i, 0 ≤ q i)
    (hsum : ((route.filter fun i => i ≠ 0).map q).sum ≤ Q) :
    applyRefillRecourse route q Q C =
      some (baseCost C route, baseCost C route, 0) := by
  have htail : ((route.tail.takeWhile fun i => i ≠ 0).map q).sum ≤ Q := by
    have h1 := takeWhile_map_sum_le q hq route.tail
    have h2 : ((route.tail.filter fun i => i ≠ 0).map q).sum ≤
        ((route.filter fun i => i ≠ 0).map q).sum := by
      cases route with
      | nil => simp
      | cons a r =>
          obtain rfl : a = 0 := by simpa using hstart
          simp [List.filter_cons]
    omega
  have hserve := serveLoop_no_refill q C Q hq route.tail Q 0 htail
  rw [applyRefillRecourse, hserve]
  simp

/-- Witness for C8: route `[0, 1, 0]`, all demands `2`, capacity `5`, all
distances `3`. -/
theorem c8_no_refill_within_capacity_witness :
    applyRefillRecourse [0, 1, 0] (fun _ => 2) 5 (fun _ _ => 3) =
      some (baseCost (fun _ _ => 3) [0, 1, 0],
        baseCost (fun _ _ => 3) [0, 1, 0], 0) :=
  c8_no_refill_within_capacity [0, 1, 0] (fun _ => 2) 5 (fun _ _ => 3)
    rfl rfl (fun _ => by norm_num) (by simp [List.filter])

lemma serveLoop_isSome (q : Nat → ℤ) (C : Nat → Nat → ℤ) {Q : ℤ} (hQ : 1 ≤ Q) :
    ∀ (l : List Nat) (cap extra : ℤ), ∃ r, serveLoop q C Q l cap extra = some r := by
  intro l
  induction l with
  | nil => intro cap extra; exact ⟨extra, rfl⟩
  | cons node rest ih =>
      intro cap extra
      by_cases hnode : node = 0
      · exact ⟨extra, by rw [serveLoop, if_pos hnode]⟩
      · by_cases hdem : q node ≤ cap
        · obtain ⟨r, hr⟩ := ih (cap - q node) extra
          exact ⟨r, by rw [serveLoop, if_neg hnode, if_pos hdem]; exact hr⟩
        · have hrem : (0 : ℤ) < q node - cap := by omega
          obtain ⟨⟨cap', extra'⟩, hloop⟩ :=
            refillLoop_terminates (C node 0) (C 0 node) hQ
              (q node - cap).toNat (q node - cap) 0 extra (by omega)
          obtain ⟨r, hr⟩ := ih cap' extra'
          refine ⟨r, ?_⟩
          rw [serveLoop]
          simp only [if_neg hnode, if_neg hdem, hloop]
          exact hr

/-- **C9.** With capacity `Q ≥ 1`, `apply_refill_recourse` terminates on every
route and every nonnegative demand vector (each refill iteration serves
`min(Q, rem) ≥ 1` units, strictly decreasing the remaining demand, so the
fuel `rem.toNat` always suffices); with `Q = 0` the inner refill loop never
terminates when the unmet demand is positive (no amount of fuel yields a
result). -/
theorem c9_recourse_termination (route : List Nat) (q : Nat → ℤ) (Q : ℤ)
    (C : Nat → Nat → ℤ) (hq : ∀ i, 0 ≤ q i) (hQ : 1 ≤ Q) :
    (∃ r, applyRefillRecourse route q Q C = some r) ∧
    (∀ (dN0 d0N : ℤ) (fuel : ℕ) (rem cap extra : ℤ), 0 < rem →
      refillLoop dN0 d0N 0 fuel rem cap extra = none) := by
  constructor
  · obtain ⟨extra, hserve⟩ := serveLoop_isSome q C hQ route.tail Q 0
    exact ⟨_, by rw [applyRefillRecourse, hserve]⟩
  · intro dN0 d0N fuel rem cap extra hrem
    exact refillLoop_zero_cap_none dN0 d0N fuel rem cap extra hrem

/-- Witness for C9: a customer demand of `7` against capacity `3` forces two
refill trips and the recourse still terminates. -/
theorem c9_recourse_termination_witness :
    (∃ r, applyRefillRecourse [0, 1, 0] (fun _ => 7) 3 (fun _ _ => 1) = some r) ∧
    refillLoop 1 1 0 5 4 0 0 = none := by
  have h := c9_recourse_termination [0, 1, 0] (fun _ => 7) 3 (fun _ _ => 1)
    (fun _ => by norm_num) (by norm_num)
  exact ⟨h.1, h.2 1 1 5 4 0 0 (by norm_num)⟩

/-! ## Periodic trip patterns (`Exercise_2.1a.py`, `solve_2_1_a`) -/

/-- Python's `min` over a nonempty collection (`dep_times.min()`);
`0` is returned for the never-occurring empty case. -/
def listMin : List ℤ → ℤ
  | [] => 0
  | x :: xs => xs.foldl min x

/-- Python's `max` over a nonempty collection;
`0` is returned for the never-occurring empty case. -/
def listMax : List ℤ → ℤ
  | [] => 0
  | x :: xs => xs.foldl max x

/-- `PERIOD = 30`. -/
def PERIOD : ℤ := 30

/-- The per-group body of the `trips_pattern` loop of `solve_2_1_a`: skip the
group when it has no departure or no arrival rows (`continue`); otherwise
`dep0 = dep_times.min()`, `duration = max((t - dep0) % PERIOD for t in
arr_times)`, replaced by `PERIOD` when zero, and the pattern is
`(Dep0, Arr0) = (dep0, dep0 + duration)`.  Python's `%` on a positive modulus
agrees with `Int.emod`. -/
def tripPattern (depTimes arrTimes : List ℤ) : Option (ℤ × ℤ) :=
  match depTimes, arrTimes with
  | [], _ => none
  | _, [] => none
  | d :: ds, a :: as_ =>
      let dep0 := listMin (d :: ds)
      let duration0 := listMax (((a :: as_).map fun t => (t - dep0) % PERIOD))
      let duration := if duration0 = 0 then PERIOD else duration0
      some (dep0, dep0 + duration)

lemma listMax_foldl_bounds {lo hi : ℤ} (hlo : 0 ≤ lo) :
    ∀ (l : List ℤ) (a : ℤ), lo ≤ a → a < hi → (∀ x ∈ l, lo ≤ x ∧ x < hi) →
      lo ≤ l.foldl max a ∧ l.foldl max a < hi := by
  intro l
  induction l with
  | nil => intro a ha1 ha2 hl; exact ⟨ha1, ha2⟩
  | cons x xs ih =>
      intro a ha1 ha2 hl
      obtain ⟨hx1, hx2⟩ := hl x (List.mem_cons_self x xs)
      refine ih (max a x) (le_max_of_le_left ha1) (by omega) ?_
      intro y hy
      exact hl y (List.mem_cons_of_mem x hy)

/-- **C10.** For every timetable group with at least one departure and one
arrival row, the computed periodic trip pattern `(Dep0, Arr0)` satisfies
`Dep0 < Arr0 ≤ Dep0 + 30`: the duration, the maximum of `(t - Dep0) % 30`
over arrival times with `0` replaced by `30`, always lies in `(0, 30]`. -/
theorem c10_trip_pattern_duration (depTimes arrTimes : List ℤ)
    (hdep : depTimes ≠ []) (harr : arrTimes ≠ []) :
    ∃ d0 a0, tripPattern depTimes arrTimes = some (d0, a0) ∧
      d0 < a0 ∧ a0 ≤ d0 + 30 := by
  match depTimes, arrTimes with
  | [], _ => exact absurd rfl hdep
  | _ :: _, [] => exact absurd rfl harr
  | d :: ds, a :: as_ =>
      set dep0 := listMin (d :: ds) with hdep0
      have hmods : ∀ x ∈ ((a :: as_).map fun t => (t - dep0) % PERIOD),
          0 ≤ x ∧ x < 30 := by
        intro x hx
        obtain ⟨t, -, rfl⟩ := List.mem_map.mp hx
        refine ⟨Int.emod_nonneg _ (by norm_num [PERIOD]), ?_⟩
        have := Int.emod_lt_of_pos (t - dep0)
          (show (0 : ℤ) < PERIOD by norm_num [PERIOD])
        simpa [PERIOD] using this
      have hbounds : 0 ≤ listMax (((a :: as_).map fun t => (t - dep0) % PERIOD)) ∧
          listMax (((a :: as_).map fun t => (t - dep0) % PERIOD)) < 30 := by
        simp only [List.map_cons, listMax]
        refine listMax_foldl_bounds le_rfl _ _ ?_ ?_ ?_
        · exact (hmods _ (by simp)).1
        · exact (hmods _ (by simp)).2
        · intro x hx
          exact hmods x (by simp [hx])
      refine ⟨dep0, dep0 + (if listMax (((a :: as_).map fun t =>
        (t - dep0) % PERIOD)) = 0 then PERIOD else
          listMax (((a :: as_).map fun t => (t - dep0) % PERIOD))), rfl, ?_, ?_⟩
      · by_cases h0 : listMax (((a :: as_).map fun t => (t - dep0) % PERIOD)) = 0
        · rw [if_pos h0]; norm_num [PERIOD]
        · rw [if_neg h0]; omega
      · by_cases h0 : listMax (((a :: as_).map fun t => (t - dep0) % PERIOD)) = 0
        · rw [if_pos h0]; norm_num [PERIOD]
        · rw [if_neg h0]; omega

/-- Witness for C10: departures `[5]`, arrivals `[12]` give the pattern
`(5, 12)`. -/
theorem c10_trip_pattern_duration_witness :
    ∃ d0 a0, tripPattern [5] [12] = some (d0, a0) ∧ d0 < a0 ∧ a0 ≤ d0 + 30 :=
  c10_trip_pattern_duration [5] [12] (by simp) (by simp)

end DecisionMaking
